import Mathlib

/-!
Verification of the payroll-system repository (A_E.cpp, DeepSeek.cpp).
The C++ sources are shallowly embedded: input lines are `String`s, the
C `ctype` classifiers become decidable character predicates, `std::stoi`
and `std::stod` become exact parses over the digit grammars with explicit
range bounds, and the employee registry (`vector<Employee*>`) becomes a
`List EmployeeRec`.
-/

/-- C `isspace` in the default locale: space, \t, \n, \v, \f, \r. -/
def isspaceC (c : Char) : Bool :=
  c = ' ' || c = '\t' || c = '\n' || c = '\x0b' || c = '\x0c' || c = '\r'

/-- C `isdigit`. -/
def isdigitC (c : Char) : Bool :=
  '0' ≤ c && c ≤ '9'

/-- C `isalpha` in the default locale (ASCII letters). -/
def isalphaC (c : Char) : Bool :=
  ('a' ≤ c && c ≤ 'z') || ('A' ≤ c && c ≤ 'Z')

/-- C `isalnum`. -/
def isalnumC (c : Char) : Bool :=
  isalphaC c || isdigitC c

/-- Function `PayrollSystem::trim` (A_E.cpp): strip leading and trailing
whitespace-class characters from a line. -/
def trim (l : List Char) : List Char :=
  ((l.dropWhile isspaceC).reverse.dropWhile isspaceC).reverse

/-- Applies `trim` to a `String` input line. -/
def trimS (s : String) : String :=
  String.mk (trim s.data)

/-- Value of a digit character. -/
def digitVal (c : Char) : Nat :=
  c.toNat - '0'.toNat

/-- Value of a digit string, as `std::stoi`/`std::stod` read it. -/
def natOfDigits (l : List Char) : Nat :=
  l.foldl (fun n c => 10 * n + digitVal c) 0

/-- Exact value `std::stod` assigns to a string of digits with at most one
decimal point: integer part plus fractional part scaled by a power of ten. -/
def parseDec (l : List Char) : ℚ :=
  let intPart := l.takeWhile (fun c => c ≠ '.')
  match l.dropWhile (fun c => c ≠ '.') with
  | [] => mkRat (natOfDigits intPart) 1
  | _ :: fracPart =>
      mkRat (natOfDigits intPart * 10 ^ fracPart.length + natOfDigits fracPart)
        (10 ^ fracPart.length)

/-- Largest finite `double`, `DBL_MAX = (2^53 - 1) * 2^971` (the numeral
below is that product written out); `std::stod` raises `out_of_range` past
it. -/
def dblMax : ℚ := mkRat 179769313486231570814527423731704356798070567525844996598917476803157260780028538760589558632766878171540458953514382464234321326889464182768467546703537516986049910576551282076245490090389328944075868508455133942304583236903222948165808559332123348274797826204144723168738177180919299881250404026184124858368 1

/-- Constant `INT_MAX` for the 32-bit `int` that `std::stoi` returns. -/
def intMax : Nat := 2147483647

/-- The character loop of `PayrollSystem::getValidDouble` (A_E.cpp):
walking the line it tracks the decimal-point count and whether a digit was
seen, and aborts on any other character or a second point.  Returns the
final (`valid`, `hasDigit`) pair. -/
def doubleScan : List Char → Nat → Bool → Bool × Bool
  | [], _, hd => (true, hd)
  | c :: rest, dp, hd =>
      if c = '.' then
        if dp + 1 > 1 then (false, hd) else doubleScan rest (dp + 1) hd
      else if isdigitC c then doubleScan rest dp true
      else (false, hd)

/-- The character loop of `PayrollSystem::getValidName` (A_E.cpp): each
character must be whitespace-class (not following another whitespace) or
alphabetic; `ps` is the `prevSpace` flag. -/
def nameScan : List Char → Bool → Bool
  | [], _ => true
  | c :: rest, ps =>
      if isspaceC c then
        if ps then false else nameScan rest true
      else
        if !isalphaC c then false else nameScan rest false

/-- Adjacent-pair check used to state the name rule declaratively: no two
consecutive whitespace-class characters. -/
def noDoubleSpace : List Char → Bool
  | [] => true
  | [_] => true
  | a :: b :: rest => !(isspaceC a && isspaceC b) && noDoubleSpace (b :: rest)

/-- Outcome of one pass of a validation loop body: a parsed value, a fixed
error message followed by a re-prompt, or an exception escaping the
validator (no handler on the call path). -/
inductive VStep (α : Type) where
  | accepted (v : α)
  | reprompt (msg : String)
  | uncaught
deriving DecidableEq

/-- One iteration of `PayrollSystem::getValidDouble` (A_E.cpp): trim, run
the character scan, require a digit, then `stod` inside try/catch — an
out-of-range value is caught and reported. -/
def aeDoubleStep (line : String) : VStep ℚ :=
  let t := trim line.data
  let scan := doubleScan t 0 false
  if !t.isEmpty && scan.1 && scan.2 then
    let v := parseDec t
    if v ≤ dblMax then .accepted v
    else .reprompt "Input out of range for a double.\n"
  else .reprompt "Invalid input! Use numbers with optional single decimal point.\n"

/-- One iteration of `PayrollSystem::getValidInt` (A_E.cpp): trim, require
all digits, then `stoi` inside try/catch. -/
def aeIntStep (line : String) : VStep Int :=
  let t := trim line.data
  if !t.isEmpty && t.all isdigitC then
    if natOfDigits t ≤ intMax then .accepted (natOfDigits t : Int)
    else .reprompt "Input out of range for an integer.\n"
  else .reprompt "Invalid input! Please enter whole numbers only.\n"

/-- One iteration of `PayrollSystem::getValidInt` (DeepSeek.cpp): no trim,
require all digits, then `stoi` with NO try/catch — on overflow the
`std::out_of_range` exception leaves the validator. -/
def dsIntStep (line : String) : VStep Int :=
  if !line.data.isEmpty && line.data.all isdigitC then
    if natOfDigits line.data ≤ intMax then .accepted (natOfDigits line.data : Int)
    else .uncaught
  else .reprompt "Invalid input! Please enter whole numbers only.\n"

/-- One iteration of `PayrollSystem::getValidName` (A_E.cpp): trim, then
the `prevSpace` scan. -/
def nameAccept (line : String) : Bool :=
  let t := trim line.data
  !t.isEmpty && nameScan t false

/-- The monetary grammar exactly as the claim words it, `digit+ ('.' digit+)?`:
at least one digit on each side of any decimal point.  Stated from the
spec, for comparison against the code's acceptance. -/
def specMoneyGrammar (l : List Char) : Bool :=
  let intPart := l.takeWhile (fun c => c ≠ '.')
  match l.dropWhile (fun c => c ≠ '.') with
  | [] => !intPart.isEmpty && intPart.all isdigitC
  | _ :: fracPart =>
      !intPart.isEmpty && intPart.all isdigitC &&
      !fracPart.isEmpty && fracPart.all isdigitC

/-- The name rule exactly as the claim words it, on the raw input line:
non-empty, every character a letter or a space, no two consecutive spaces.
Stated from the spec, for comparison against the code's acceptance. -/
def specNameOk (s : String) : Bool :=
  !s.data.isEmpty && s.data.all (fun c => isalphaC c || isspaceC c) &&
  noDoubleSpace s.data

/-- Variant-specific payload of an employee record: the three concrete
subclasses of `Employee` in A_E.cpp. -/
inductive Variant where
  | fullTime
  | partTime (hourlyRate : ℚ) (hoursWorked : Int)
  | contractual (paymentPerProject : ℚ) (projectsCompleted : Int)
deriving DecidableEq

/-- An employee record: the base-class fields `id`, `name`, and the
`salary` stored at construction time, plus the variant payload. -/
structure EmployeeRec where
  id : String
  name : String
  salary : ℚ
  variant : Variant
deriving DecidableEq

/-- The `FullTimeEmployee` constructor: stores the monthly salary unchanged. -/
def mkFullTimeEmployee (id name : String) (salary : ℚ) : EmployeeRec :=
  ⟨id, name, salary, .fullTime⟩

/-- The `PartTimeEmployee` constructor: stores `hourlyRate * hoursWorked` as
the salary (the `int` promoted to `double` in the product). -/
def mkPartTimeEmployee (id name : String) (hourlyRate : ℚ) (hoursWorked : Int) :
    EmployeeRec :=
  ⟨id, name, hourlyRate * (hoursWorked : ℚ), .partTime hourlyRate hoursWorked⟩

/-- The `ContractualEmployee` constructor: stores
`paymentPerProject * projectsCompleted` as the salary. -/
def mkContractualEmployee (id name : String) (paymentPerProject : ℚ)
    (projectsCompleted : Int) : EmployeeRec :=
  ⟨id, name, paymentPerProject * (projectsCompleted : ℚ),
   .contractual paymentPerProject projectsCompleted⟩

/-- Method `PayrollSystem::isIdUnique`: linear scan returning `false` at the
first record whose id equals the argument, else `true`. -/
def isIdUnique : List EmployeeRec → String → Bool
  | [], _ => true
  | e :: rest, i => if e.id = i then false else isIdUnique rest i

/-- Outcome of one iteration of `PayrollSystem::getValidID` (A_E.cpp). -/
inductive IdOutcome where
  | accepted (id : String)
  | invalidMsg
  | duplicateMsg
deriving DecidableEq

/-- The alphanumeric identifier grammar of `getValidID`. -/
def idGrammar (t : List Char) : Bool :=
  !t.isEmpty && t.all isalnumC

/-- One iteration of `PayrollSystem::getValidID` (A_E.cpp): trim, check
the alphanumeric grammar, then the duplicate check against the registry
(`"Duplicate ID! Try again."` on failure). -/
def aeIdStep (es : List EmployeeRec) (line : String) : IdOutcome :=
  let t := trim line.data
  if idGrammar t then
    if isIdUnique es (String.mk t) then .accepted (String.mk t)
    else .duplicateMsg
  else .invalidMsg

/-- The whole `getValidID` retry loop over a queue of input lines: keep
consuming lines until one is accepted (the name prompt is only reached
afterwards, so a rejected id re-prompts for the identifier only). -/
def getValidIDLoop (es : List EmployeeRec) : List String → Option String
  | [] => none
  | l :: rest =>
      match aeIdStep es l with
      | .accepted i => some i
      | _ => getValidIDLoop es rest

/-- The `employees.push_back(new FullTimeEmployee(...))` step of
`addEmployee` case 1. -/
def addFullTime (es : List EmployeeRec) (id name : String) (salary : ℚ) :
    List EmployeeRec :=
  es ++ [mkFullTimeEmployee id name salary]

/-- The `employees.push_back(new PartTimeEmployee(...))` step of
`addEmployee` case 2. -/
def addPartTime (es : List EmployeeRec) (id name : String) (rate : ℚ)
    (hours : Int) : List EmployeeRec :=
  es ++ [mkPartTimeEmployee id name rate hours]

/-- The `employees.push_back(new ContractualEmployee(...))` step of
`addEmployee` case 3. -/
def addContractual (es : List EmployeeRec) (id name : String) (rate : ℚ)
    (projects : Int) : List EmployeeRec :=
  es ++ [mkContractualEmployee id name rate projects]

/-- Text rendering of a rational for the report blocks.  The C++ streams
format numerals with locale rules this model does not reproduce; the
report claims depend only on which blocks appear and in what order. -/
def showQ (q : ℚ) : String := toString q

/-- Text rendering of an `int` field. -/
def showZ (z : Int) : String := toString z

/-- The `display()` override of each concrete employee class: the
variant-specific multi-line block. -/
def displayBlock (e : EmployeeRec) : String :=
  match e.variant with
  | .fullTime =>
      "Employee: " ++ e.name ++ " (ID: " ++ e.id ++ ")\n" ++
      "Fixed Monthly Salary: $" ++ showQ e.salary ++ "\n\n"
  | .partTime r h =>
      "Employee: " ++ e.name ++ " (ID: " ++ e.id ++ ")\n" ++
      "Hourly Rate: $" ++ showQ r ++ "\n" ++
      "Hours Worked: " ++ showZ h ++ "\n" ++
      "Total Salary: $" ++ showQ e.salary ++ "\n\n"
  | .contractual p k =>
      "Employee: " ++ e.name ++ " (ID: " ++ e.id ++ ")\n" ++
      "Contract Payment Per Project: $" ++ showQ p ++ "\n" ++
      "Projects Completed: " ++ showZ k ++ "\n" ++
      "Total Salary: $" ++ showQ e.salary ++ "\n\n"

/-- Method `PayrollSystem::displayPayrollReport`: the fixed empty-registry
message, or the header followed by each record's block in storage order
(the `for` loop accumulating onto `cout`). -/
def displayPayrollReport (es : List EmployeeRec) : String :=
  if es.isEmpty then "No employees in system!\n\n"
  else es.foldl (fun acc e => acc ++ displayBlock e) "\nEmployee Payroll Report ---\n"

/-- What one trip around the `main` menu loop decides to do with the
selection line. -/
inductive MenuOutcome where
  | addEmp (ty : Nat)
  | report
  | exitProg
  | invalidChoice
  | invalidOption
deriving DecidableEq

/-- The selection handling in `main` (A_E.cpp): trim the line; if its
length is not 1 or its first character is not a digit, print
`"Invalid menu choice!"`; otherwise switch on the digit, with digits
outside 1–5 printing `"Invalid menu option!"`. -/
def menuStep (line : String) : MenuOutcome :=
  let c := trim line.data
  if c.length ≠ 1 || !isdigitC (c.headD 'x') then .invalidChoice
  else
    match c.headD 'x' with
    | '1' => .addEmp 1
    | '2' => .addEmp 2
    | '3' => .addEmp 3
    | '4' => .report
    | '5' => .exitProg
    | _ => .invalidOption

/-- Operations the command loop can run against the registry. -/
inductive Op where
  | opAddFullTime (id name : String) (salary : ℚ)
  | opAddPartTime (id name : String) (rate : ℚ) (hours : Int)
  | opAddContractual (id name : String) (rate : ℚ) (projects : Int)
  | opReport

/-- Registry state after an operation.  `displayPayrollReport` is a
`const` member that only reads `employees`, so `opReport` returns the
state unchanged. -/
def applyOp : Op → List EmployeeRec → List EmployeeRec
  | .opAddFullTime i n s, es => addFullTime es i n s
  | .opAddPartTime i n r h, es => addPartTime es i n r h
  | .opAddContractual i n r k, es => addContractual es i n r k
  | .opReport, es => es

/-- Registry states reachable through the command loop: the empty initial
registry, and each `addEmployee` case where the id passed `getValidID`
against the current registry and the numeric fields passed their
validators on some input line.  Invalid lines and report generation leave
the state unchanged. -/
inductive Reachable : List EmployeeRec → Prop where
  | init : Reachable []
  | addFT {es : List EmployeeRec} {lid ls : String} {i n : String} {sal : ℚ} :
      Reachable es → aeIdStep es lid = .accepted i →
      aeDoubleStep ls = .accepted sal →
      Reachable (addFullTime es i n sal)
  | addPT {es : List EmployeeRec} {lid lr lh : String} {i n : String}
      {r : ℚ} {h : Int} :
      Reachable es → aeIdStep es lid = .accepted i →
      aeDoubleStep lr = .accepted r → aeIntStep lh = .accepted h →
      Reachable (addPartTime es i n r h)
  | addCT {es : List EmployeeRec} {lid lr lk : String} {i n : String}
      {r : ℚ} {k : Int} :
      Reachable es → aeIdStep es lid = .accepted i →
      aeDoubleStep lr = .accepted r → aeIntStep lk = .accepted k →
      Reachable (addContractual es i n r k)





/-- Unfolding `doubleScan` on a second decimal point. -/
lemma doubleScan_dot_over (rest : List Char) (dp : Nat) (hd : Bool)
    (h : dp + 1 > 1) : doubleScan ('.' :: rest) dp hd = (false, hd) := by
  simp [doubleScan, h]

/-- Unfolding `doubleScan` on a first decimal point. -/
lemma doubleScan_dot (rest : List Char) (dp : Nat) (hd : Bool)
    (h : ¬ dp + 1 > 1) : doubleScan ('.' :: rest) dp hd = doubleScan rest (dp + 1) hd := by
  simp [doubleScan, h]

/-- Unfolding `doubleScan` on a digit. -/
lemma doubleScan_digit (c : Char) (rest : List Char) (dp : Nat) (hd : Bool)
    (hc : ¬ c = '.') (hdig : isdigitC c = true) :
    doubleScan (c :: rest) dp hd = doubleScan rest dp true := by
  simp [doubleScan, hc, hdig]

/-- Unfolding `doubleScan` on any other character. -/
lemma doubleScan_bad (c : Char) (rest : List Char) (dp : Nat) (hd : Bool)
    (hc : ¬ c = '.') (hdig : ¬ isdigitC c = true) :
    doubleScan (c :: rest) dp hd = (false, hd) := by
  simp [doubleScan, hc, hdig]

/-- The `valid` flag of the monetary character scan holds exactly when
every character is a digit or a point and the total point count (with the
`dp` points already seen) stays at most one. -/
lemma doubleScan_fst : ∀ (l : List Char) (dp : Nat) (hd : Bool), dp ≤ 1 →
    ((doubleScan l dp hd).1 = true ↔
      ((∀ c ∈ l, c = '.' ∨ isdigitC c = true) ∧ dp + l.count '.' ≤ 1)) := by
  intro l
  induction l with
  | nil =>
      intro dp hd hdp
      simp [doubleScan, hdp]
  | cons c rest ih =>
      intro dp hd hdp
      by_cases hc : c = '.'
      · subst hc
        by_cases hdp1 : dp + 1 > 1
        · rw [doubleScan_dot_over rest dp hd hdp1]
          constructor
          · intro h; cases h
          · rintro ⟨-, hcount⟩
            rw [List.count_cons_self] at hcount
            omega
        · rw [doubleScan_dot rest dp hd hdp1]
          rw [ih (dp + 1) hd (by omega)]
          rw [List.count_cons_self]
          constructor
          · rintro ⟨hall, hcount⟩
            refine ⟨?_, by omega⟩
            intro x hx
            rcases List.mem_cons.mp hx with h | h
            · exact Or.inl h
            · exact hall x h
          · rintro ⟨hall, hcount⟩
            refine ⟨?_, by omega⟩
            intro x hx
            exact hall x (List.mem_cons_of_mem _ hx)
      · by_cases hdig : isdigitC c = true
        · rw [doubleScan_digit c rest dp hd hc hdig]
          rw [ih dp true hdp]
          rw [List.count_cons_of_ne (Ne.symm hc)]
          constructor
          · rintro ⟨hall, hcount⟩
            refine ⟨?_, hcount⟩
            intro x hx
            rcases List.mem_cons.mp hx with h | h
            · exact Or.inr (h ▸ hdig)
            · exact hall x h
          · rintro ⟨hall, hcount⟩
            exact ⟨fun x hx => hall x (List.mem_cons_of_mem _ hx), hcount⟩
        · rw [doubleScan_bad c rest dp hd hc hdig]
          constructor
          · intro h; cases h
          · rintro ⟨hall, -⟩
            rcases hall c (List.mem_cons_self c rest) with h | h
            · exact absurd h hc
            · exact absurd h hdig

/-- When the monetary scan succeeds, its `hasDigit` flag reports whether
any character was a digit (on top of the digits already seen). -/
lemma doubleScan_snd : ∀ (l : List Char) (dp : Nat) (hd : Bool),
    (doubleScan l dp hd).1 = true →
    (doubleScan l dp hd).2 = (hd || l.any isdigitC) := by
  intro l
  induction l with
  | nil => intro dp hd _; simp [doubleScan]
  | cons c rest ih =>
      intro dp hd hvalid
      by_cases hc : c = '.'
      · subst hc
        by_cases hdp1 : dp + 1 > 1
        · rw [doubleScan_dot_over rest dp hd hdp1] at hvalid
          cases hvalid
        · rw [doubleScan_dot rest dp hd hdp1] at hvalid ⊢
          rw [ih _ _ hvalid]
          have hdot : isdigitC '.' = false := by decide
          simp [List.any_cons, hdot]
      · by_cases hdig : isdigitC c = true
        · rw [doubleScan_digit c rest dp hd hc hdig] at hvalid ⊢
          rw [ih _ _ hvalid]
          simp [List.any_cons, hdig]
        · rw [doubleScan_bad c rest dp hd hc hdig] at hvalid
          cases hvalid

/-- Lemma unfolding `aeDoubleStep` to its decision tree. -/
lemma aeDoubleStep_eq (s : String) :
    aeDoubleStep s =
      (if (!(trim s.data).isEmpty && (doubleScan (trim s.data) 0 false).1 &&
           (doubleScan (trim s.data) 0 false).2) = true then
        (if parseDec (trim s.data) ≤ dblMax then
          VStep.accepted (parseDec (trim s.data))
         else .reprompt "Input out of range for a double.\n")
       else .reprompt "Invalid input! Use numbers with optional single decimal point.\n") :=
  rfl

/-- The grammar-passing condition of `getValidDouble`, spelled out. -/
lemma aeDoubleStep_accepted_iff (s : String) :
    (∃ q, aeDoubleStep s = .accepted q) ↔
      (trim s.data ≠ [] ∧ (∀ c ∈ trim s.data, c = '.' ∨ isdigitC c = true) ∧
       (trim s.data).count '.' ≤ 1 ∧ (∃ c ∈ trim s.data, isdigitC c = true) ∧
       parseDec (trim s.data) ≤ dblMax) := by
  rw [aeDoubleStep_eq]
  by_cases h1 : (!(trim s.data).isEmpty && (doubleScan (trim s.data) 0 false).1 &&
      (doubleScan (trim s.data) 0 false).2) = true
  · rw [if_pos h1]
    have h1' := h1
    simp only [Bool.and_eq_true, Bool.not_eq_true'] at h1'
    obtain ⟨⟨hne, hvalid⟩, hdig⟩ := h1'
    have hscan := (doubleScan_fst (trim s.data) 0 false (by omega)).mp hvalid
    have hsnd := doubleScan_snd (trim s.data) 0 false hvalid
    rw [hdig] at hsnd
    have hany : (trim s.data).any isdigitC = true := by
      rw [Bool.false_or] at hsnd
      exact hsnd.symm
    by_cases h2 : parseDec (trim s.data) ≤ dblMax
    · rw [if_pos h2]
      constructor
      · intro _
        refine ⟨?_, hscan.1, by omega, ?_, h2⟩
        · intro hnil
          rw [hnil] at hne
          simp at hne
        · simpa using hany
      · intro _
        exact ⟨parseDec (trim s.data), rfl⟩
    · rw [if_neg h2]
      constructor
      · rintro ⟨q, hq⟩
        cases hq
      · rintro ⟨-, -, -, -, hle⟩
        exact absurd hle h2
  · rw [if_neg h1]
    constructor
    · rintro ⟨q, hq⟩
      cases hq
    · rintro ⟨hne, hall, hcount, hex, -⟩
      exfalso
      apply h1
      have hvalid : (doubleScan (trim s.data) 0 false).1 = true :=
        (doubleScan_fst (trim s.data) 0 false (by omega)).mpr ⟨hall, by omega⟩
      have hsnd := doubleScan_snd (trim s.data) 0 false hvalid
      have hany : (trim s.data).any isdigitC = true := by
        simpa using hex
      rw [hany] at hsnd
      simp only [Bool.and_eq_true, Bool.not_eq_true']
      refine ⟨⟨?_, hvalid⟩, by simpa using hsnd⟩
      cases hnil : (trim s.data).isEmpty
      · rfl
      · exact absurd (List.isEmpty_iff.mp hnil) hne

/-- The value an accepted monetary line parses to. -/
lemma aeDoubleStep_accepted_val (s : String) (q : ℚ)
    (h : aeDoubleStep s = .accepted q) : q = parseDec (trim s.data) := by
  rw [aeDoubleStep_eq] at h
  by_cases h1 : (!(trim s.data).isEmpty && (doubleScan (trim s.data) 0 false).1 &&
      (doubleScan (trim s.data) 0 false).2) = true
  · rw [if_pos h1] at h
    by_cases h2 : parseDec (trim s.data) ≤ dblMax
    · rw [if_pos h2] at h
      cases h
      rfl
    · rw [if_neg h2] at h
      cases h
  · rw [if_neg h1] at h
    cases h

/-- C1 counterexample: the line ".5" has no digit left of the decimal
point, so it does not match the claimed grammar `digit+ ('.' digit+)?`,
yet `getValidDouble` accepts it (the code only requires a digit somewhere
in the line), parsing it to one half. -/
theorem C1_money_grammar_counterexample :
    aeDoubleStep ".5" = .accepted (mkRat 1 2) ∧
    specMoneyGrammar (trim ".5".data) = false := by
  constructor
  · decide
  · decide

/-- C1 (amended): `getValidDouble` accepts a line iff its trimmed form is
non-empty, consists only of digits and at most one decimal point, and
contains at least one digit anywhere (not necessarily on each side of the
point), with the parsed value within `double` range; the accepted value is
the exact decimal reading, so "1200.50" parses to 1200.50, "100" to 100,
and "12.5.6", "abc", "" are rejected with the re-prompt message. -/
theorem C1_money_grammar :
    (∀ s : String, (∃ q, aeDoubleStep s = .accepted q) ↔
      (trim s.data ≠ [] ∧ (∀ c ∈ trim s.data, c = '.' ∨ isdigitC c = true) ∧
       (trim s.data).count '.' ≤ 1 ∧ (∃ c ∈ trim s.data, isdigitC c = true) ∧
       parseDec (trim s.data) ≤ dblMax)) ∧
    (∀ s q, aeDoubleStep s = .accepted q → q = parseDec (trim s.data)) ∧
    aeDoubleStep "1200.50" = .accepted (mkRat 2401 2) ∧
    aeDoubleStep "100" = .accepted 100 ∧
    aeDoubleStep "12.5.6" =
      .reprompt "Invalid input! Use numbers with optional single decimal point.\n" ∧
    aeDoubleStep "abc" =
      .reprompt "Invalid input! Use numbers with optional single decimal point.\n" ∧
    aeDoubleStep "" =
      .reprompt "Invalid input! Use numbers with optional single decimal point.\n" := by
  refine ⟨aeDoubleStep_accepted_iff, aeDoubleStep_accepted_val, ?_, ?_, ?_, ?_, ?_⟩
  · decide
  · decide
  · decide
  · decide
  · decide

/-- C1 witness: the value clause of `C1_money_grammar` applied at the
concrete accepted line "7". -/
theorem C1_money_grammar_witness : (7 : ℚ) = parseDec (trim "7".data) :=
  C1_money_grammar.2.1 "7" 7 (by decide)

/-- Whether a line starts with a whitespace-class character. -/
def firstSpace : List Char → Bool
  | [] => false
  | c :: _ => isspaceC c

/-- Unfolding `nameScan` on a whitespace character after a non-space. -/
lemma nameScan_space (c : Char) (rest : List Char) (hc : isspaceC c = true) :
    nameScan (c :: rest) false = nameScan rest true := by
  simp [nameScan, hc]

/-- Unfolding `nameScan` on a whitespace character after a space. -/
lemma nameScan_space_space (c : Char) (rest : List Char) (hc : isspaceC c = true) :
    nameScan (c :: rest) true = false := by
  simp [nameScan, hc]

/-- Unfolding `nameScan` on an alphabetic character. -/
lemma nameScan_alpha (c : Char) (rest : List Char) (ps : Bool)
    (hc : isspaceC c = false) (ha : isalphaC c = true) :
    nameScan (c :: rest) ps = nameScan rest false := by
  cases ps <;> simp [nameScan, hc, ha]

/-- Unfolding `nameScan` on a character that is neither whitespace nor
alphabetic. -/
lemma nameScan_bad (c : Char) (rest : List Char) (ps : Bool)
    (hc : isspaceC c = false) (ha : isalphaC c = false) :
    nameScan (c :: rest) ps = false := by
  cases ps <;> simp [nameScan, hc, ha]

/-- The `prevSpace` scan of `getValidName` succeeds exactly when every
character is alphabetic or whitespace, no two consecutive characters are
whitespace, and (when the flag starts set) the first character is not
whitespace. -/
lemma nameScan_iff : ∀ (l : List Char) (ps : Bool),
    nameScan l ps = true ↔
      ((∀ c ∈ l, isalphaC c = true ∨ isspaceC c = true) ∧
       noDoubleSpace l = true ∧ (ps = true → firstSpace l = false)) := by
  intro l
  induction l with
  | nil =>
      intro ps
      simp [nameScan, noDoubleSpace, firstSpace]
  | cons c rest ih =>
      intro ps
      by_cases hc : isspaceC c = true
      · cases ps
        · rw [nameScan_space c rest hc, ih true]
          constructor
          · rintro ⟨hall, hdbl, hfs⟩
            refine ⟨?_, ?_, ?_⟩
            · intro x hx
              rcases List.mem_cons.mp hx with h | h
              · exact Or.inr (h ▸ hc)
              · exact hall x h
            · cases rest with
              | nil => simp [noDoubleSpace]
              | cons d rest' =>
                  have hd := hfs rfl
                  simp only [firstSpace] at hd
                  simp [noDoubleSpace, hd, hdbl]
            · intro h; cases h
          · rintro ⟨hall, hdbl, -⟩
            refine ⟨fun x hx => hall x (List.mem_cons_of_mem _ hx), ?_, ?_⟩
            · cases rest with
              | nil => simp [noDoubleSpace]
              | cons d rest' =>
                  simp only [noDoubleSpace, Bool.and_eq_true] at hdbl
                  exact hdbl.2
            · intro _
              cases rest with
              | nil => simp [firstSpace]
              | cons d rest' =>
                  simp only [noDoubleSpace, Bool.and_eq_true, Bool.not_eq_true',
                    Bool.and_eq_false_iff] at hdbl
                  rcases hdbl.1 with h | h
                  · exact absurd hc (by simp [h])
                  · simp [firstSpace, h]
        · rw [nameScan_space_space c rest hc]
          constructor
          · intro h; cases h
          · rintro ⟨-, -, hfs⟩
            have := hfs rfl
            simp only [firstSpace] at this
            rw [hc] at this
            cases this
      · have hc' : isspaceC c = false := by
          cases h : isspaceC c
          · rfl
          · exact absurd h hc
        by_cases ha : isalphaC c = true
        · rw [nameScan_alpha c rest ps hc' ha, ih false]
          constructor
          · rintro ⟨hall, hdbl, -⟩
            refine ⟨?_, ?_, ?_⟩
            · intro x hx
              rcases List.mem_cons.mp hx with h | h
              · exact Or.inl (h ▸ ha)
              · exact hall x h
            · cases rest with
              | nil => simp [noDoubleSpace]
              | cons d rest' =>
                  simp [noDoubleSpace, hc', hdbl]
            · intro _
              simp [firstSpace, hc']
          · rintro ⟨hall, hdbl, -⟩
            refine ⟨fun x hx => hall x (List.mem_cons_of_mem _ hx), ?_, ?_⟩
            · cases rest with
              | nil => simp [noDoubleSpace]
              | cons d rest' =>
                  simp only [noDoubleSpace, Bool.and_eq_true] at hdbl
                  exact hdbl.2
            · intro h; cases h
        · have ha' : isalphaC c = false := by
            cases h : isalphaC c
            · rfl
            · exact absurd h ha
          rw [nameScan_bad c rest ps hc' ha']
          constructor
          · intro h; cases h
          · rintro ⟨hall, -, -⟩
            rcases hall c (List.mem_cons_self c rest) with h | h
            · exact absurd h ha
            · exact absurd h hc

/-- C2 counterexample: the raw line " " (one space) is non-empty, all of
its characters are spaces, and it has no two consecutive spaces, so the
claimed acceptance condition holds of it; yet `getValidName` trims the
line to "" first and rejects it. -/
theorem C2_name_rule_counterexample :
    nameAccept " " = false ∧ specNameOk " " = true := by
  constructor
  · decide
  · decide

/-- C2 (amended): `getValidName` accepts a line iff its trimmed form is
non-empty, every character of the trimmed form is an alphabetic letter or
a whitespace character, and no two consecutive characters of the trimmed
form are whitespace; "John Doe" is accepted while "John  Doe", "John3"
and "" are rejected with a re-prompt. -/
theorem C2_name_rule :
    (∀ s : String, nameAccept s = true ↔
      (trim s.data ≠ [] ∧
       (∀ c ∈ trim s.data, isalphaC c = true ∨ isspaceC c = true) ∧
       noDoubleSpace (trim s.data) = true)) ∧
    nameAccept "John Doe" = true ∧
    nameAccept "John  Doe" = false ∧
    nameAccept "John3" = false ∧
    nameAccept "" = false := by
  refine ⟨?_, by decide, by decide, by decide, by decide⟩
  intro s
  show (!(trim s.data).isEmpty && nameScan (trim s.data) false) = true ↔ _
  rw [Bool.and_eq_true]
  rw [nameScan_iff (trim s.data) false]
  constructor
  · rintro ⟨hne, hall, hdbl, -⟩
    refine ⟨?_, hall, hdbl⟩
    intro hnil
    rw [hnil] at hne
    cases hne
  · rintro ⟨hne, hall, hdbl⟩
    refine ⟨?_, hall, hdbl, ?_⟩
    · cases hnil : (trim s.data).isEmpty
      · rfl
      · exact absurd (List.isEmpty_iff.mp hnil) hne
    · intro h; cases h

/-- C3: the all-digit line "99999999999999" exceeds `INT_MAX`, so
`std::stoi` throws `std::out_of_range`.  `getValidInt` in DeepSeek.cpp has
no try/catch, so the exception escapes the validator (contradicting the
spec's error-handling design), while the A_E.cpp validator catches it and
re-prompts with the distinct out-of-range message. -/
theorem C3_overflow_exception :
    dsIntStep "99999999999999" = .uncaught ∧
    aeIntStep "99999999999999" =
      .reprompt "Input out of range for an integer.\n" := by
  constructor
  · decide
  · decide

/-- C4 counterexample: the selection "6" has length 1 and a first
character outside '1'–'5', so the claim says it prints
"Invalid menu choice!"; the code instead reaches the switch default and
prints "Invalid menu option!". -/
theorem C4_menu_counterexample :
    menuStep "6" = .invalidOption ∧
    MenuOutcome.invalidOption ≠ MenuOutcome.invalidChoice := by
  constructor
  · decide
  · decide

/-- C4 (amended): a selection whose trimmed form has length ≠ 1 or whose
single character is not a digit prints "Invalid menu choice!"; a single
digit outside '1'–'5' instead prints "Invalid menu option!"; in both
cases no action is dispatched and the menu is redisplayed. -/
theorem C4_menu_rejection :
    (∀ s : String, (trim s.data).length ≠ 1 → menuStep s = .invalidChoice) ∧
    (∀ (s : String) (c : Char), trim s.data = [c] → isdigitC c = false →
      menuStep s = .invalidChoice) ∧
    (∀ (s : String) (c : Char), trim s.data = [c] → isdigitC c = true →
      c ∉ (['1', '2', '3', '4', '5'] : List Char) →
      menuStep s = .invalidOption) := by
  refine ⟨?_, ?_, ?_⟩
  · intro s h
    simp [menuStep, h]
  · intro s c hc hdig
    simp [menuStep, hc, hdig]
  · intro s c hc hdig hmem
    simp only [List.mem_cons, List.mem_singleton, not_or] at hmem
    obtain ⟨h1, h2, h3, h4, h5⟩ := hmem
    simp only [menuStep, hc, List.length_singleton, List.headD_cons]
    rw [if_neg (by simp [hdig])]
    split <;> simp_all

/-- C4 witness: the three rejection clauses of `C4_menu_rejection` at the
concrete selections "12", "x" and "6". -/
theorem C4_menu_rejection_witness :
    menuStep "12" = .invalidChoice ∧ menuStep "x" = .invalidChoice ∧
    menuStep "6" = .invalidOption :=
  ⟨C4_menu_rejection.1 "12" (by decide),
   C4_menu_rejection.2.1 "x" 'x' (by decide) (by decide),
   C4_menu_rejection.2.2 "6" '6' (by decide) (by decide) (by decide)⟩

/-- C5 counterexample: with one record of id "A1" in the registry, the
fresh identifier "B2" is NOT already present, yet `getValidID` accepts it
— the loop rejects (with the duplicate message) exactly the identifiers
that ARE present, not those that are absent as the claim states. -/
theorem C5_duplicate_check_counterexample :
    aeIdStep [mkFullTimeEmployee "A1" "Ann" 5000] "B2" = .accepted "B2" ∧
    isIdUnique [mkFullTimeEmployee "A1" "Ann" 5000] "B2" = true := by
  constructor
  · decide
  · decide

/-- C5 (amended): during the add-employee flow, a grammatically valid
identifier is rejected with the duplicate message exactly when it is
already present in the registry (i.e. not unique), and accepted exactly
when no record has it; a rejected line makes the loop continue with the
next line, re-prompting for the identifier only. -/
theorem C5_duplicate_check :
    (∀ (es : List EmployeeRec) (line : String),
      idGrammar (trim line.data) = true →
      ((aeIdStep es line = .duplicateMsg ↔ isIdUnique es (trimS line) = false) ∧
       (aeIdStep es line = .accepted (trimS line) ↔
         isIdUnique es (trimS line) = true))) ∧
    (∀ (es : List EmployeeRec) (l : String) (rest : List String),
      aeIdStep es l = .duplicateMsg →
      getValidIDLoop es (l :: rest) = getValidIDLoop es rest) := by
  constructor
  · intro es line hg
    simp only [aeIdStep, trimS, hg, if_true]
    by_cases hu : isIdUnique es (String.mk (trim line.data)) = true
    · rw [if_pos hu]
      constructor
      · constructor
        · intro h; cases h
        · intro h
          rw [hu] at h
          cases h
      · constructor
        · intro _; exact hu
        · intro _; rfl
    · have hu' : isIdUnique es (String.mk (trim line.data)) = false := by
        cases h : isIdUnique es (String.mk (trim line.data))
        · rfl
        · exact absurd h hu
      rw [if_neg (by rw [hu']; intro h; cases h)]
      constructor
      · constructor
        · intro _; exact hu'
        · intro _; rfl
      · constructor
        · intro h; cases h
        · intro h
          rw [hu'] at h
          cases h
  · intro es l rest h
    simp only [getValidIDLoop, h]

/-- C5 witness: the amended duplicate rule at a concrete registry — the
present id "A1" draws the duplicate message and the loop then consumes
the next line. -/
theorem C5_duplicate_check_witness :
    (aeIdStep [mkFullTimeEmployee "A1" "Ann" 5000] "A1" = .duplicateMsg ↔
      isIdUnique [mkFullTimeEmployee "A1" "Ann" 5000] (trimS "A1") = false) ∧
    getValidIDLoop [mkFullTimeEmployee "A1" "Ann" 5000] ["A1", "B2"] =
      getValidIDLoop [mkFullTimeEmployee "A1" "Ann" 5000] ["B2"] :=
  ⟨(C5_duplicate_check.1 [mkFullTimeEmployee "A1" "Ann" 5000] "A1" (by decide)).1,
   C5_duplicate_check.2 [mkFullTimeEmployee "A1" "Ann" 5000] "A1" ["B2"] (by decide)⟩

/-- C6: each `addEmployee` case appends its record, and the stored salary
is the variant formula — `hourlyRate × hoursWorked` for part-time,
`paymentPerProject × projectsCompleted` for contractual, and the input
monthly salary unchanged for full-time. -/
theorem C6_salary_formula :
    (∀ (es : List EmployeeRec) (i n : String) (r : ℚ) (h : Int),
      (addPartTime es i n r h).getLast? = some (mkPartTimeEmployee i n r h) ∧
      (mkPartTimeEmployee i n r h).salary = r * (h : ℚ)) ∧
    (∀ (es : List EmployeeRec) (i n : String) (p : ℚ) (k : Int),
      (addContractual es i n p k).getLast? = some (mkContractualEmployee i n p k) ∧
      (mkContractualEmployee i n p k).salary = p * (k : ℚ)) ∧
    (∀ (es : List EmployeeRec) (i n : String) (s : ℚ),
      (addFullTime es i n s).getLast? = some (mkFullTimeEmployee i n s) ∧
      (mkFullTimeEmployee i n s).salary = s) := by
  refine ⟨?_, ?_, ?_⟩
  · intro es i n r h
    exact ⟨List.getLast?_concat _, rfl⟩
  · intro es i n p k
    exact ⟨List.getLast?_concat _, rfl⟩
  · intro es i n s
    exact ⟨List.getLast?_concat _, rfl⟩

/-- Predicate `isIdUnique es i` holds exactly when no record in `es` has id `i`. -/
lemma isIdUnique_iff (es : List EmployeeRec) (i : String) :
    isIdUnique es i = true ↔ ∀ e ∈ es, e.id ≠ i := by
  induction es with
  | nil => simp [isIdUnique]
  | cons e rest ih =>
      by_cases he : e.id = i
      · simp only [isIdUnique, if_pos he]
        constructor
        · intro h; cases h
        · intro h
          exact absurd he (h e (List.mem_cons_self e rest))
      · simp only [isIdUnique, if_neg he]
        rw [ih]
        constructor
        · intro h x hx
          rcases List.mem_cons.mp hx with hh | hh
          · rw [hh]; exact he
          · exact h x hh
        · intro h x hx
          exact h x (List.mem_cons_of_mem _ hx)

/-- C7: `isIdUnique` is a pure query answering "no existing record has
this id"; after inserting two records with distinct ids it is false at
each of them and still true at any id unrelated to the registry. -/
theorem C7_isIdUnique :
    (∀ (es : List EmployeeRec) (i : String),
      isIdUnique es i = true ↔ ∀ e ∈ es, e.id ≠ i) ∧
    (∀ (es : List EmployeeRec) (r1 r2 : EmployeeRec) (i : String),
      r1.id ≠ r2.id →
      (isIdUnique (es ++ [r1, r2]) r1.id = false ∧
       isIdUnique (es ++ [r1, r2]) r2.id = false ∧
       (isIdUnique es i = true → i ≠ r1.id → i ≠ r2.id →
         isIdUnique (es ++ [r1, r2]) i = true))) := by
  refine ⟨isIdUnique_iff, ?_⟩
  intro es r1 r2 i hne
  refine ⟨?_, ?_, ?_⟩
  · cases h : isIdUnique (es ++ [r1, r2]) r1.id
    · rfl
    · have := (isIdUnique_iff _ _).mp h r1 (by simp)
      exact absurd rfl this
  · cases h : isIdUnique (es ++ [r1, r2]) r2.id
    · rfl
    · have := (isIdUnique_iff _ _).mp h r2 (by simp)
      exact absurd rfl this
  · intro hu h1 h2
    rw [isIdUnique_iff]
    intro e he
    rcases List.mem_append.mp he with hh | hh
    · exact (isIdUnique_iff es i).mp hu e hh
    · rcases List.mem_cons.mp hh with hh | hh
      · rw [hh]; exact fun hc => h1 hc.symm
      · rcases List.mem_singleton.mp hh with hh
        rw [hh]; exact fun hc => h2 hc.symm

/-- C7 witness: the insertion clause of `C7_isIdUnique` at a concrete
registry holding ids "A1" and "B2", probed with the unrelated id "C3". -/
theorem C7_isIdUnique_witness :
    isIdUnique ([] ++ [mkFullTimeEmployee "A1" "Ann" 5000,
      mkPartTimeEmployee "B2" "Bob" 10 3]) (mkFullTimeEmployee "A1" "Ann" 5000).id
        = false ∧
    isIdUnique ([] ++ [mkFullTimeEmployee "A1" "Ann" 5000,
      mkPartTimeEmployee "B2" "Bob" 10 3]) (mkPartTimeEmployee "B2" "Bob" 10 3).id
        = false ∧
    (isIdUnique [] "C3" = true →
      "C3" ≠ (mkFullTimeEmployee "A1" "Ann" 5000).id →
      "C3" ≠ (mkPartTimeEmployee "B2" "Bob" 10 3).id →
      isIdUnique ([] ++ [mkFullTimeEmployee "A1" "Ann" 5000,
        mkPartTimeEmployee "B2" "Bob" 10 3]) "C3" = true) :=
  C7_isIdUnique.2 [] (mkFullTimeEmployee "A1" "Ann" 5000)
    (mkPartTimeEmployee "B2" "Bob" 10 3) "C3" (by decide)

/-- Value of `parseDec` on a string with no decimal point. -/
lemma parseDec_eq_nil (l : List Char) (h : l.dropWhile (fun c => c ≠ '.') = []) :
    parseDec l = mkRat (natOfDigits (l.takeWhile (fun c => c ≠ '.'))) 1 := by
  unfold parseDec
  rw [h]

/-- Value of `parseDec` on a string with a decimal point. -/
lemma parseDec_eq_cons (l : List Char) (c : Char) (fp : List Char)
    (h : l.dropWhile (fun c => c ≠ '.') = c :: fp) :
    parseDec l = mkRat (natOfDigits (l.takeWhile (fun c => c ≠ '.')) * 10 ^ fp.length +
      natOfDigits fp) (10 ^ fp.length) := by
  unfold parseDec
  rw [h]

/-- The decimal reading of a digit string is non-negative. -/
lemma parseDec_nonneg (l : List Char) : 0 ≤ parseDec l := by
  cases h : l.dropWhile (fun c => c ≠ '.') with
  | nil =>
      rw [parseDec_eq_nil l h]
      exact Rat.mkRat_nonneg (Int.natCast_nonneg _) _
  | cons c fp =>
      rw [parseDec_eq_cons l c fp h]
      exact Rat.mkRat_nonneg (by positivity) _

/-- A value accepted by `getValidDouble` is non-negative (the grammar
admits no sign). -/
lemma aeDoubleStep_nonneg (s : String) (q : ℚ)
    (h : aeDoubleStep s = .accepted q) : 0 ≤ q := by
  rw [aeDoubleStep_accepted_val s q h]
  exact parseDec_nonneg _

/-- Lemma unfolding `aeIntStep` to its decision tree. -/
lemma aeIntStep_eq (s : String) :
    aeIntStep s =
      (if (!(trim s.data).isEmpty && (trim s.data).all isdigitC) = true then
        (if natOfDigits (trim s.data) ≤ intMax then
          VStep.accepted (natOfDigits (trim s.data) : Int)
         else .reprompt "Input out of range for an integer.\n")
       else .reprompt "Invalid input! Please enter whole numbers only.\n") :=
  rfl

/-- A value accepted by `getValidInt` is non-negative (the grammar admits
no sign). -/
lemma aeIntStep_nonneg (s : String) (z : Int)
    (h : aeIntStep s = .accepted z) : 0 ≤ z := by
  rw [aeIntStep_eq] at h
  by_cases h1 : (!(trim s.data).isEmpty && (trim s.data).all isdigitC) = true
  · rw [if_pos h1] at h
    by_cases h2 : natOfDigits (trim s.data) ≤ intMax
    · rw [if_pos h2] at h
      cases h
      exact Int.natCast_nonneg _
    · rw [if_neg h2] at h
      cases h
  · rw [if_neg h1] at h
    cases h

/-- An identifier accepted by `getValidID` passed the duplicate check
against the registry it was validated against. -/
lemma aeIdStep_accepted_unique (es : List EmployeeRec) (l : String) (i : String)
    (h : aeIdStep es l = .accepted i) : isIdUnique es i = true := by
  unfold aeIdStep at h
  by_cases hg : idGrammar (trim l.data) = true
  · rw [if_pos hg] at h
    by_cases hu : isIdUnique es (String.mk (trim l.data)) = true
    · rw [if_pos hu] at h
      cases h
      exact hu
    · rw [if_neg hu] at h
      cases h
  · rw [if_neg hg] at h
    cases h

/-- C8: in every registry state reachable through the command loop, every
record's salary is non-negative (the validated grammars admit no sign) and
no two records share an id. -/
theorem C8_registry_invariants : ∀ (es : List EmployeeRec), Reachable es →
    (∀ e ∈ es, 0 ≤ e.salary) ∧ es.Pairwise (fun a b => a.id ≠ b.id) := by
  intro es h
  induction h with
  | init => simp
  | @addFT es lid ls i n sal hre hid hsal ih =>
      obtain ⟨ihs, ihp⟩ := ih
      have hidu := aeIdStep_accepted_unique es lid i hid
      have hnotin := (isIdUnique_iff es i).mp hidu
      simp only [addFullTime]
      constructor
      · intro e he
        rcases List.mem_append.mp he with hh | hh
        · exact ihs e hh
        · rcases List.mem_singleton.mp hh with rfl
          exact aeDoubleStep_nonneg ls sal hsal
      · rw [List.pairwise_append]
        refine ⟨ihp, by simp, ?_⟩
        intro a ha b hb
        rcases List.mem_singleton.mp hb with rfl
        exact hnotin a ha
  | @addPT es lid lr lh i n r hw hre hid hr hh ih =>
      obtain ⟨ihs, ihp⟩ := ih
      have hidu := aeIdStep_accepted_unique es lid i hid
      have hnotin := (isIdUnique_iff es i).mp hidu
      simp only [addPartTime]
      constructor
      · intro e he
        rcases List.mem_append.mp he with hmem | hmem
        · exact ihs e hmem
        · rcases List.mem_singleton.mp hmem with rfl
          exact mul_nonneg (aeDoubleStep_nonneg lr r hr)
            (by exact_mod_cast aeIntStep_nonneg lh hw hh)
      · rw [List.pairwise_append]
        refine ⟨ihp, by simp, ?_⟩
        intro a ha b hb
        rcases List.mem_singleton.mp hb with rfl
        exact hnotin a ha
  | @addCT es lid lr lk i n r k hre hid hr hk ih =>
      obtain ⟨ihs, ihp⟩ := ih
      have hidu := aeIdStep_accepted_unique es lid i hid
      have hnotin := (isIdUnique_iff es i).mp hidu
      simp only [addContractual]
      constructor
      · intro e he
        rcases List.mem_append.mp he with hmem | hmem
        · exact ihs e hmem
        · rcases List.mem_singleton.mp hmem with rfl
          exact mul_nonneg (aeDoubleStep_nonneg lr r hr)
            (by exact_mod_cast aeIntStep_nonneg lk k hk)
      · rw [List.pairwise_append]
        refine ⟨ihp, by simp, ?_⟩
        intro a ha b hb
        rcases List.mem_singleton.mp hb with rfl
        exact hnotin a ha

/-- C8 witness: the invariants at the concrete reachable state obtained
by adding one full-time employee with validated input lines "A1" and
"5000". -/
theorem C8_registry_invariants_witness :
    (∀ e ∈ addFullTime [] "A1" "Ann Lee" 5000, 0 ≤ e.salary) ∧
    (addFullTime [] "A1" "Ann Lee" 5000).Pairwise (fun a b => a.id ≠ b.id) :=
  C8_registry_invariants (addFullTime [] "A1" "Ann Lee" 5000)
    (Reachable.addFT Reachable.init
      (show aeIdStep [] "A1" = .accepted "A1" by decide)
      (show aeDoubleStep "5000" = .accepted 5000 by decide))

/-- Pulling a fixed left part out of a string-accumulating fold. -/
lemma foldl_append_str {α : Type} (g : α → String) :
    ∀ (l : List α) (a b : String),
      List.foldl (fun r e => r ++ g e) (a ++ b) l =
        a ++ List.foldl (fun r e => r ++ g e) b l := by
  intro l
  induction l with
  | nil => intro a b; rfl
  | cons x xs ih =>
      intro a b
      show List.foldl (fun r e => r ++ g e) ((a ++ b) ++ g x) xs =
        a ++ List.foldl (fun r e => r ++ g e) (b ++ g x) xs
      rw [String.append_assoc]
      exact ih a (b ++ g x)

/-- Function `String.join` distributes over the head of a list. -/
lemma join_cons (s : String) (l : List String) :
    String.join (s :: l) = s ++ String.join l := by
  show List.foldl (fun r t => r ++ t) ("" ++ s) l =
    s ++ List.foldl (fun r t => r ++ t) "" l
  rw [String.empty_append]
  have h := foldl_append_str (fun t : String => t) l s ""
  rw [String.append_empty] at h
  exact h

/-- A string-accumulating fold from the empty string is the join of the
rendered pieces. -/
lemma foldl_blocks {α : Type} (g : α → String) :
    ∀ l : List α,
      List.foldl (fun r e => r ++ g e) "" l = String.join (l.map g) := by
  intro l
  induction l with
  | nil => rfl
  | cons x xs ih =>
      show List.foldl (fun r e => r ++ g e) ("" ++ g x) xs = _
      rw [String.empty_append]
      have h := foldl_append_str g xs (g x) ""
      rw [String.append_empty] at h
      rw [h, ih, List.map_cons, join_cons]

/-- C9: the report on an empty registry is exactly the fixed message with
no per-record output; on a non-empty registry it is the header followed
by each record's variant-specific block, in insertion order. -/
theorem C9_report :
    displayPayrollReport [] = "No employees in system!\n\n" ∧
    (∀ es : List EmployeeRec, es ≠ [] →
      displayPayrollReport es =
        "\nEmployee Payroll Report ---\n" ++ String.join (es.map displayBlock)) := by
  constructor
  · rfl
  · intro es hne
    unfold displayPayrollReport
    rw [if_neg (by
      cases es with
      | nil => exact absurd rfl hne
      | cons e rest => simp)]
    have h := foldl_append_str displayBlock es "\nEmployee Payroll Report ---\n" ""
    rw [String.append_empty] at h
    rw [h, foldl_blocks]

/-- C9 witness: the non-empty clause of `C9_report` at a registry holding
one full-time record. -/
theorem C9_report_witness :
    displayPayrollReport [mkFullTimeEmployee "A1" "Ann Lee" 5000] =
      "\nEmployee Payroll Report ---\n" ++
        String.join ([mkFullTimeEmployee "A1" "Ann Lee" 5000].map displayBlock) :=
  C9_report.2 [mkFullTimeEmployee "A1" "Ann Lee" 5000] (by simp)

/-- C10: generating a report leaves the registry exactly as it was — the
same records with the same ids, names, salaries, in the same order — so a
report followed by any operation is that operation alone on the same
state. -/
theorem C10_report_frame :
    (∀ es : List EmployeeRec, applyOp .opReport es = es) ∧
    (∀ (op : Op) (es : List EmployeeRec),
      applyOp op (applyOp .opReport es) = applyOp op es) := by
  constructor
  · intro es; rfl
  · intro op es; rfl
